import Mathlib

/-!
Verification of the rpi-toolkit core: the drift-compensating periodic timer
(`simple_timer.h`) and the software PWM engine (`rpi_pwm.h`).

The C code is shallowly embedded: the monotonic clock `millis()` becomes an
explicit `now : Nat` argument, mutation of caller-owned structs becomes
returning the updated struct, the PWM slot pool (a static array of
`MAX_PWM_PINS` slots) becomes a `List pwm_pin_t`, and side effects (GPIO
writes, sleeps, thread join) become explicit event traces.  The possibly
non-terminating advance loop of `timer_tick` is given fuel; termination is the
existence of enough fuel.
-/

namespace RpiToolkit

/-! ## Periodic timer (`simple_timer.h`) -/

/-- `simple_timer_t`: `next_expiry` (absolute ms deadline) and `interval` (ms),
both `uint64_t` in C, modelled as `Nat` (the millisecond clock since boot never
approaches `2^64` in a process lifetime, so wraparound is immaterial). -/
structure simple_timer_t where
  next_expiry : Nat
  interval : Nat
deriving Repr, DecidableEq

/-- `timer_set(t, interval_ms)`: sets the interval and arms the deadline at
`millis() + interval_ms`.  `now` is the value `millis()` returned. -/
def timer_set (interval_ms : Nat) (now : Nat) : simple_timer_t :=
  { interval := interval_ms, next_expiry := now + interval_ms }

/-- `timer_expired(t)`: `millis() >= t->next_expiry`. -/
def timer_expired (t : simple_timer_t) (now : Nat) : Bool :=
  now ≥ t.next_expiry

/-- The advance loop of `timer_tick`:
`while (t->next_expiry <= now) t->next_expiry += t->interval;`
run with explicit fuel; `none` means the fuel ran out before the loop exited. -/
def tickLoop : Nat → Nat → Nat → Nat → Option Nat
  | 0, _, _, _ => none
  | fuel + 1, ne, interval, now =>
    if ne ≤ now then tickLoop fuel (ne + interval) interval now else some ne

/-- `timer_tick(t)`: reads `now = millis()` once; if `now >= next_expiry`,
advances `next_expiry` by `interval` until it exceeds `now` and returns `true`;
otherwise returns `false` without mutation.  Result is the pair
(returned bool, timer state after the call); `none` = the loop did not
terminate within `fuel` iterations. -/
def timer_tick (fuel : Nat) (t : simple_timer_t) (now : Nat) :
    Option (Bool × simple_timer_t) :=
  if t.next_expiry ≤ now then
    match tickLoop fuel t.next_expiry t.interval now with
    | some ne => some (true, { t with next_expiry := ne })
    | none => none
  else
    some (false, t)

/-! ## Software PWM engine (`rpi_pwm.h`) -/

/-- `MAX_PWM_PINS`. -/
def MAX_PWM_PINS : Nat := 8

/-- `PWM_DEFAULT_FREQ_HZ`. -/
def PWM_DEFAULT_FREQ_HZ : Int := 100

/-- `PWM_DUTY_MIN`. -/
def PWM_DUTY_MIN : Int := 0

/-- `PWM_DUTY_MAX`. -/
def PWM_DUTY_MAX : Int := 100

/-- `PWM_CLAMP_DUTY(d)`: clamp a duty cycle into `[0, 100]`. -/
def PWM_CLAMP_DUTY (d : Int) : Int :=
  if d < PWM_DUTY_MIN then PWM_DUTY_MIN
  else if d > PWM_DUTY_MAX then PWM_DUTY_MAX else d

/-- One slot of the PWM pool (`pwm_pin_t`): pin number, duty percentage,
period in microseconds, the worker-continuation flag `running`, and the pool
occupancy flag `active`.  The `pthread_t` handle carries no observable state
and is omitted; the join is an explicit event instead. -/
structure pwm_pin_t where
  pin : Int
  duty : Int
  period_us : Int
  running : Bool
  active : Bool
deriving Repr, DecidableEq

instance : Inhabited pwm_pin_t := ⟨⟨0, 0, 0, false, false⟩⟩

/-- The static zero-initialised pool `pwm_pins[MAX_PWM_PINS] = {0}`. -/
def pwm_pool_init : List pwm_pin_t :=
  List.replicate MAX_PWM_PINS ⟨0, 0, 0, false, false⟩

/-- Result of the slot-scan loop inside `pwm_init_freq`: either the early
`return 0` (an active slot already drives this pin), or the value of the local
`slot` variable after the full scan (`none` = `-1`, no free slot seen). -/
inductive ScanResult where
  | alreadyActive : ScanResult
  | freeSlot : Option Nat → ScanResult
deriving Repr, DecidableEq

/-- The scan loop of `pwm_init_freq`:
`for i: if (active && pin match) return 0; if (!active && slot == -1) slot = i;`
`i` is the index of the head of the remaining list, `slot` the accumulator. -/
def pwm_scan (pin : Int) : List pwm_pin_t → Nat → Option Nat → ScanResult
  | [], _, slot => .freeSlot slot
  | p :: rest, i, slot =>
    if p.active && p.pin == pin then .alreadyActive
    else pwm_scan pin rest (i + 1) (if !p.active && slot.isNone then some i else slot)

/-- `pwm_init_freq(pin, freq_hz)` on the RPi platform.  `spawn_ok` models
whether `pthread_create` succeeds.  Returns the C return value and the pool
after the call. -/
def pwm_init_freq (pins : List pwm_pin_t) (pin : Int) (freq_hz : Int)
    (spawn_ok : Bool) : Int × List pwm_pin_t :=
  let freq := if freq_hz ≤ 0 then PWM_DEFAULT_FREQ_HZ else freq_hz
  match pwm_scan pin pins 0 none with
  | .alreadyActive => (0, pins)
  | .freeSlot none => (-1, pins)
  | .freeSlot (some slot) =>
    let newSlot : pwm_pin_t :=
      { pin := pin, duty := 0, period_us := 1000000 / freq
        running := true, active := true }
    if spawn_ok then (0, pins.set slot newSlot)
    else (-1, pins.set slot { newSlot with active := false })

/-- `pwm_init(pin)`: `pwm_init_freq(pin, PWM_DEFAULT_FREQ_HZ)`. -/
def pwm_init (pins : List pwm_pin_t) (pin : Int) (spawn_ok : Bool) :
    Int × List pwm_pin_t :=
  pwm_init_freq pins pin PWM_DEFAULT_FREQ_HZ spawn_ok

/-- The lookup-and-update loop of `pwm_write` (duty already clamped):
first slot with `active && pin match` gets the new duty, then the function
returns; no match leaves the pool untouched. -/
def pwm_write_loop (pin d : Int) : List pwm_pin_t → List pwm_pin_t
  | [] => []
  | p :: rest =>
    if p.active && p.pin == pin then { p with duty := d } :: rest
    else p :: pwm_write_loop pin d rest

/-- `pwm_write(pin, duty)`: clamps, then updates the first matching active
slot under the pool mutex; silent no-op when no slot matches. -/
def pwm_write (pins : List pwm_pin_t) (pin duty : Int) : List pwm_pin_t :=
  pwm_write_loop pin (PWM_CLAMP_DUTY duty) pins

/-- Observable actions of `pwm_stop` in order: clearing the running flag,
`pthread_join` on the worker, `digital_write(pin, LOW)`, marking the slot
inactive. -/
inductive PwmEvent where
  | setRunningFalse : Int → PwmEvent
  | joinThread : Int → PwmEvent
  | gpioWrite : Int → Bool → PwmEvent
  | slotFreed : Int → PwmEvent
deriving Repr, DecidableEq

/-- The loop of `pwm_stop`: finds the first slot with `active && pin match`,
clears `running`, joins the thread (outside the mutex), drives the pin LOW and
clears `active`; returns the final pool and the ordered event trace. -/
def pwm_stop_loop (pin : Int) : List pwm_pin_t → List pwm_pin_t × List PwmEvent
  | [] => ([], [])
  | p :: rest =>
    if p.active && p.pin == pin then
      ({ p with running := false, active := false } :: rest,
       [.setRunningFalse pin, .joinThread pin, .gpioWrite pin false, .slotFreed pin])
    else
      let r := pwm_stop_loop pin rest
      (p :: r.1, r.2)

/-- `pwm_stop(pin)`. -/
def pwm_stop (pins : List pwm_pin_t) (pin : Int) :
    List pwm_pin_t × List PwmEvent :=
  pwm_stop_loop pin pins

/-- Observable actions of the worker thread `pwm_thread_func`: the read of the
`running` flag at the top of each loop iteration, `digital_write` (true =
HIGH), and `usleep`. -/
inductive ThreadEvent where
  | checkRunning : ThreadEvent
  | gpio : Int → Bool → ThreadEvent
  | sleep : Int → ThreadEvent
deriving Repr, DecidableEq

/-- One iteration body of `pwm_thread_func`: snapshot `d = duty`,
`period = period_us`, then LOW-for-period (d ≤ 0), HIGH-for-period (d ≥ 100),
or HIGH for `period * d / 100` then LOW for the remainder. -/
def pwm_cycle (p : pwm_pin_t) : List ThreadEvent :=
  let d := p.duty
  let period := p.period_us
  if d ≤ PWM_DUTY_MIN then
    [.gpio p.pin false, .sleep period]
  else if d ≥ PWM_DUTY_MAX then
    [.gpio p.pin true, .sleep period]
  else
    let on_time := period * d / PWM_DUTY_MAX
    let off_time := period - on_time
    [.gpio p.pin true, .sleep on_time, .gpio p.pin false, .sleep off_time]

/-- `pwm_thread_func`'s outer loop `while (p->running) { ... }`: `flags` is
the sequence of values the volatile `running` field presents at each check; a
`false` read exits, a `true` read runs one full cycle. -/
def pwm_thread_func (p : pwm_pin_t) : List Bool → List ThreadEvent
  | [] => []
  | b :: rest =>
    ThreadEvent.checkRunning :: (if b then pwm_cycle p ++ pwm_thread_func p rest else [])

/-- At most one active slot per pin: distinct pool indices that are both
active never carry the same pin number. -/
def uniqueActive (pins : List pwm_pin_t) : Prop :=
  ∀ i, ∀ hi : i < pins.length, ∀ j, ∀ hj : j < pins.length, i ≠ j →
    (pins.get ⟨i, hi⟩).active = true → (pins.get ⟨j, hj⟩).active = true →
    (pins.get ⟨i, hi⟩).pin ≠ (pins.get ⟨j, hj⟩).pin

/-! ## Lemmas about the timer advance loop -/

/-- Whenever the advance loop exits, the resulting deadline is strictly past
`now`. -/
lemma tickLoop_some_gt {fuel ne interval now r : Nat}
    (h : tickLoop fuel ne interval now = some r) : now < r := by
  induction fuel generalizing ne with
  | zero => simp [tickLoop] at h
  | succ fuel ih =>
    rw [tickLoop] at h
    by_cases hle : ne ≤ now
    · rw [if_pos hle] at h
      exact ih h
    · rw [if_neg hle] at h
      cases h
      omega

/-- The loop result never overshoots: starting expired, the exit value is at
most `now + interval` (the loop stops at the first deadline past `now`). -/
lemma tickLoop_some_le {fuel ne interval now r : Nat}
    (h : tickLoop fuel ne interval now = some r) :
    (ne ≤ now → r ≤ now + interval) ∧ (now < ne → r = ne) := by
  induction fuel generalizing ne with
  | zero => simp [tickLoop] at h
  | succ fuel ih =>
    rw [tickLoop] at h
    by_cases hle : ne ≤ now
    · rw [if_pos hle] at h
      rcases ih h with ⟨h₁, h₂⟩
      constructor
      · intro _
        by_cases h₃ : ne + interval ≤ now
        · exact h₁ h₃
        · rw [h₂ (by omega)]
          omega
      · omega
    · rw [if_neg hle] at h
      cases h
      exact ⟨fun h => absurd h hle, fun _ => rfl⟩

/-- With a positive interval the loop terminates: some finite fuel suffices. -/
lemma tickLoop_pos_some (interval now : Nat) (hiv : 0 < interval) :
    ∀ ne, ∃ fuel r, tickLoop fuel ne interval now = some r := by
  have key : ∀ k ne, now + 1 - ne ≤ k →
      ∃ fuel r, tickLoop fuel ne interval now = some r := by
    intro k
    induction k with
    | zero =>
      intro ne hk
      refine ⟨1, ne, ?_⟩
      have : ¬ ne ≤ now := by omega
      simp [tickLoop, this]
    | succ k ih =>
      intro ne hk
      by_cases hle : ne ≤ now
      · obtain ⟨fuel, r, hr⟩ := ih (ne + interval) (by omega)
        exact ⟨fuel + 1, r, by simp [tickLoop, hle, hr]⟩
      · exact ⟨1, ne, by simp [tickLoop, hle]⟩
  intro ne
  exact key (now + 1 - ne) ne (Nat.le_refl _)

/-- With interval zero and an already-reached deadline the loop never exits:
every fuel amount is exhausted. -/
lemma tickLoop_zero_none {ne now : Nat} (h : ne ≤ now) :
    ∀ fuel, tickLoop fuel ne 0 now = none := by
  intro fuel
  induction fuel with
  | zero => rfl
  | succ fuel ih => simp [tickLoop, h, ih]

/-! ## Lemmas about the PWM pool loops -/

/-- If some pool entry is an active slot for `pin`, the init scan takes the
early-return branch, whatever the index counter and slot accumulator are. -/
lemma pwm_scan_mem_match {pin : Int} {pins : List pwm_pin_t} {q : pwm_pin_t}
    (hq : q ∈ pins) (ha : q.active = true) (hp : q.pin = pin) :
    ∀ i slot, pwm_scan pin pins i slot = .alreadyActive := by
  induction pins with
  | nil => cases hq
  | cons p rest ih =>
    intro i slot
    rcases List.mem_cons.mp hq with h | h
    · subst h
      simp [pwm_scan, ha, hp]
    · rw [pwm_scan]
      by_cases hm : (p.active && p.pin == pin) = true
      · simp [hm]
      · simp only [hm, if_false, Bool.false_eq_true]
        exact ih h (i + 1) _

/-- Once the slot accumulator holds a value, a match-free remainder of the
scan leaves it unchanged. -/
lemma pwm_scan_no_match_some {pin : Int} {pins : List pwm_pin_t}
    (hno : ∀ q ∈ pins, (q.active && q.pin == pin) = false) :
    ∀ i s, pwm_scan pin pins i (some s) = .freeSlot (some s) := by
  induction pins with
  | nil => intro i s; rfl
  | cons p rest ih =>
    intro i s
    have hp := hno p (List.mem_cons_self p rest)
    rw [pwm_scan]
    simp only [hp, Bool.false_eq_true, if_false, Option.isNone_some, Bool.and_false]
    exact ih (fun q hq => hno q (List.mem_cons_of_mem p hq)) (i + 1) s

/-- A fully active, match-free pool makes the scan report no free slot. -/
lemma pwm_scan_all_active {pin : Int} {pins : List pwm_pin_t}
    (hact : ∀ q ∈ pins, q.active = true)
    (hno : ∀ q ∈ pins, (q.active && q.pin == pin) = false) :
    ∀ i, pwm_scan pin pins i none = .freeSlot none := by
  induction pins with
  | nil => intro i; rfl
  | cons p rest ih =>
    intro i
    have hp := hno p (List.mem_cons_self p rest)
    have hpa := hact p (List.mem_cons_self p rest)
    have hpp : (p.pin == pin) = false := by
      rw [hpa] at hp
      simpa using hp
    rw [pwm_scan]
    simp only [hpa, hpp, Bool.true_and, Bool.false_eq_true, if_false, Bool.not_true,
      Bool.false_and]
    exact ih (fun q hq => hact q (List.mem_cons_of_mem p hq))
      (fun q hq => hno q (List.mem_cons_of_mem p hq)) (i + 1)

/-- In a match-free pool whose first inactive entry is `r`, preceded by the
fully active run `l₁`, the scan reports free slot `i + l₁.length`. -/
lemma pwm_scan_first_free {pin : Int} {l₁ l₂ : List pwm_pin_t} {r : pwm_pin_t}
    (hact : ∀ q ∈ l₁, q.active = true)
    (hr : r.active = false)
    (hno : ∀ q ∈ l₁ ++ r :: l₂, (q.active && q.pin == pin) = false) :
    ∀ i, pwm_scan pin (l₁ ++ r :: l₂) i none = .freeSlot (some (i + l₁.length)) := by
  induction l₁ with
  | nil =>
    intro i
    have hnr : (r.active && r.pin == pin) = false := hno r (by simp)
    rw [List.nil_append, pwm_scan]
    simp only [hnr, Bool.false_eq_true, if_false, hr, Bool.not_false, Option.isNone_none,
      Bool.and_true, Bool.true_and, if_true]
    rw [pwm_scan_no_match_some (fun q hq => hno q (by simp [hq])) (i + 1) i]
    simp
  | cons a l₁ ih =>
    intro i
    have hna : (a.active && a.pin == pin) = false := hno a (by simp)
    have haa : a.active = true := hact a (List.mem_cons_self a l₁)
    have hap : (a.pin == pin) = false := by
      rw [haa] at hna
      simpa using hna
    rw [List.cons_append, pwm_scan]
    simp only [haa, hap, Bool.true_and, Bool.false_eq_true, if_false, Bool.not_true,
      Bool.false_and]
    rw [ih (fun q hq => hact q (List.mem_cons_of_mem a hq))
      (fun q hq => hno q (List.mem_cons_of_mem a hq)) (i + 1)]
    have harith : i + 1 + l₁.length = i + (l₁.length + 1) := by omega
    simp only [List.length_cons, harith]

/-- `pwm_stop` on a pool with no active slot for `pin` is a no-op: the pool is
unchanged and nothing observable happens (in particular no join). -/
lemma pwm_stop_loop_no_match {pin : Int} {pins : List pwm_pin_t}
    (hno : ∀ q ∈ pins, (q.active && q.pin == pin) = false) :
    pwm_stop_loop pin pins = (pins, []) := by
  induction pins with
  | nil => rfl
  | cons p rest ih =>
    have hp := hno p (List.mem_cons_self p rest)
    rw [pwm_stop_loop]
    simp only [hp, Bool.false_eq_true, if_false,
      ih (fun q hq => hno q (List.mem_cons_of_mem p hq))]

/-- `pwm_stop` on the first active slot for `pin`: the slot's `running` and
`active` flags are cleared and the events happen in source order (flag clear,
join, drive LOW, slot release). -/
lemma pwm_stop_loop_first_match {pin : Int} {l₁ l₂ : List pwm_pin_t} {r : pwm_pin_t}
    (hno : ∀ a ∈ l₁, (a.active && a.pin == pin) = false)
    (hract : r.active = true) (hrpin : r.pin = pin) :
    pwm_stop_loop pin (l₁ ++ r :: l₂) =
      (l₁ ++ { r with running := false, active := false } :: l₂,
       [.setRunningFalse pin, .joinThread pin, .gpioWrite pin false, .slotFreed pin]) := by
  induction l₁ with
  | nil =>
    rw [List.nil_append, pwm_stop_loop]
    simp [hract, hrpin]
  | cons a l₁ ih =>
    have hna := hno a (List.mem_cons_self a l₁)
    rw [List.cons_append, pwm_stop_loop]
    simp only [hna, Bool.false_eq_true, if_false,
      ih (fun q hq => hno q (List.mem_cons_of_mem a hq))]
    rfl

/-- `pwm_write` on a pool with no active slot for `pin` changes nothing. -/
lemma pwm_write_loop_no_match {pin d : Int} {pins : List pwm_pin_t}
    (hno : ∀ q ∈ pins, (q.active && q.pin == pin) = false) :
    pwm_write_loop pin d pins = pins := by
  induction pins with
  | nil => rfl
  | cons p rest ih =>
    have hp := hno p (List.mem_cons_self p rest)
    rw [pwm_write_loop]
    simp only [hp, Bool.false_eq_true, if_false,
      ih (fun q hq => hno q (List.mem_cons_of_mem p hq))]

/-- `pwm_write` updates exactly the duty of the first active slot for `pin`. -/
lemma pwm_write_loop_first_match {pin d : Int} {l₁ l₂ : List pwm_pin_t} {r : pwm_pin_t}
    (hno : ∀ a ∈ l₁, (a.active && a.pin == pin) = false)
    (hract : r.active = true) (hrpin : r.pin = pin) :
    pwm_write_loop pin d (l₁ ++ r :: l₂) = l₁ ++ { r with duty := d } :: l₂ := by
  induction l₁ with
  | nil =>
    rw [List.nil_append, pwm_write_loop]
    simp [hract, hrpin]
  | cons a l₁ ih =>
    have hna := hno a (List.mem_cons_self a l₁)
    rw [List.cons_append, pwm_write_loop]
    simp only [hna, Bool.false_eq_true, if_false,
      ih (fun q hq => hno q (List.mem_cons_of_mem a hq))]
    rfl

/-- Setting the element at position `l₁.length` of `l₁ ++ r :: l₂`. -/
lemma set_length_append {α : Type} (l₁ l₂ : List α) (r s : α) :
    (l₁ ++ r :: l₂).set l₁.length s = l₁ ++ s :: l₂ := by
  rw [List.set_append]
  simp

/-- The first entry of the pool satisfying a boolean predicate splits the pool
into a predicate-free prefix, the entry, and a suffix. -/
lemma exists_first_split {P : pwm_pin_t → Bool} {pins : List pwm_pin_t}
    (h : ∃ q ∈ pins, P q = true) :
    ∃ l₁ r l₂, pins = l₁ ++ r :: l₂ ∧ P r = true ∧ ∀ a ∈ l₁, P a = false := by
  induction pins with
  | nil => simp at h
  | cons p rest ih =>
    by_cases hp : P p = true
    · exact ⟨[], p, rest, rfl, hp, by simp⟩
    · obtain ⟨q, hq, hPq⟩ := h
      rcases List.mem_cons.mp hq with h | h
      · exact absurd (h ▸ hPq) hp
      · obtain ⟨l₁, r, l₂, heq, hr, hl₁⟩ := ih ⟨q, h, hPq⟩
        refine ⟨p :: l₁, r, l₂, by rw [heq, List.cons_append], hr, ?_⟩
        intro a ha
        rcases List.mem_cons.mp ha with h | h
        · subst h
          exact Bool.eq_false_iff.mpr hp
        · exact hl₁ a h

/-- A slot update whose new pin value collides with no active entry preserves
pin uniqueness among active slots. -/
lemma uniqueActive_set {pins : List pwm_pin_t} {k : Nat} {s : pwm_pin_t}
    (hu : uniqueActive pins)
    (hno : ∀ q ∈ pins, q.active = true → q.pin ≠ s.pin) :
    uniqueActive (pins.set k s) := by
  intro i hi j hj hne hai haj
  have hi0 : i < pins.length := by simpa using hi
  have hj0 : j < pins.length := by simpa using hj
  simp only [List.get_eq_getElem, List.getElem_set] at hai haj ⊢
  by_cases hki : k = i <;> by_cases hkj : k = j
  · exact absurd (hki.symm.trans hkj) hne
  · rw [if_pos hki] at hai
    rw [if_neg hkj] at haj
    rw [if_pos hki, if_neg hkj]
    intro hcontra
    exact hno pins[j] (List.getElem_mem hj0) haj hcontra.symm
  · rw [if_neg hki] at hai
    rw [if_pos hkj] at haj
    rw [if_neg hki, if_pos hkj]
    exact hno pins[i] (List.getElem_mem hi0) hai
  · rw [if_neg hki] at hai
    rw [if_neg hkj] at haj
    rw [if_neg hki, if_neg hkj]
    have := hu i hi0 j hj0 hne
    simp only [List.get_eq_getElem] at this
    exact this hai haj

instance uniqueActive_decidable (pins : List pwm_pin_t) :
    Decidable (uniqueActive pins) := by
  unfold uniqueActive
  infer_instance

/-! ## Timer claims -/

/-- C1: a non-expired timer yields `false` from `timer_tick` with no mutation;
an expired timer with a positive interval yields `true` with the deadline
advanced strictly past `now`, and an immediately following `timer_tick` at the
same clock reading yields `false` — any number of missed periods collapses
into one `true`.  Concretely: interval 10 ms armed at 0, clock at 55 ms, the
first call returns `true` (deadline 60), the second returns `false`. -/
theorem timer_tick_C1 (t : simple_timer_t) (now : Nat) :
    (now < t.next_expiry → ∀ fuel, timer_tick fuel t now = some (false, t)) ∧
    (t.next_expiry ≤ now → 0 < t.interval →
      ∃ fuel t2, timer_tick fuel t now = some (true, t2) ∧
        now < t2.next_expiry ∧
        timer_tick fuel t2 now = some (false, t2)) ∧
    (timer_tick 6 (timer_set 10 0) 55 = some (true, ⟨60, 10⟩) ∧
      timer_tick 6 ⟨60, 10⟩ 55 = some (false, ⟨60, 10⟩)) := by
  refine ⟨?_, ?_, by decide⟩
  · intro hlt fuel
    have : ¬ t.next_expiry ≤ now := by omega
    simp [timer_tick, this]
  · intro hexp hiv
    obtain ⟨fuel, r, hr⟩ := tickLoop_pos_some t.interval now hiv t.next_expiry
    have hgt := tickLoop_some_gt hr
    refine ⟨fuel, { t with next_expiry := r }, ?_, hgt, ?_⟩
    · simp [timer_tick, hexp, hr]
    · have : ¬ r ≤ now := by omega
      simp [timer_tick, this]

/-- C1 witness: the general parts of `timer_tick_C1` instantiated at the
concrete timer armed with interval 10 at time 0 and clock reading 55. -/
theorem timer_tick_C1_witness :
    (∀ fuel, timer_tick fuel ⟨60, 10⟩ 55 = some (false, ⟨60, 10⟩)) ∧
    (∃ fuel t2, timer_tick fuel ⟨10, 10⟩ 55 = some (true, t2) ∧
      55 < t2.next_expiry ∧ timer_tick fuel t2 55 = some (false, t2)) :=
  ⟨(timer_tick_C1 ⟨60, 10⟩ 55).1 (by decide),
   (timer_tick_C1 ⟨10, 10⟩ 55).2.1 (by decide) (by decide)⟩

/-- C7: `timer_tick` terminates for every timer with a positive interval
(some fuel yields a result at every clock reading); with interval 0 and the
timer expired, the advance loop never terminates (every fuel is exhausted). -/
theorem timer_tick_C7 (t : simple_timer_t) (now : Nat) :
    (0 < t.interval → ∃ fuel r, timer_tick fuel t now = some r) ∧
    (t.interval = 0 → t.next_expiry ≤ now →
      ∀ fuel, timer_tick fuel t now = none) := by
  constructor
  · intro hiv
    by_cases hexp : t.next_expiry ≤ now
    · obtain ⟨fuel, r, hr⟩ := tickLoop_pos_some t.interval now hiv t.next_expiry
      exact ⟨fuel, (true, { t with next_expiry := r }), by simp [timer_tick, hexp, hr]⟩
    · exact ⟨0, (false, t), by simp [timer_tick, hexp]⟩
  · intro hz hexp fuel
    simp only [timer_tick, if_pos hexp, hz, tickLoop_zero_none hexp fuel]

/-- C7 witness: interval 1 terminates at a concrete expired timer; interval 0
exhausts fuel 5 at a concrete expired timer. -/
theorem timer_tick_C7_witness :
    (∃ fuel r, timer_tick fuel ⟨3, 1⟩ 7 = some r) ∧
    timer_tick 5 ⟨3, 0⟩ 7 = none :=
  ⟨(timer_tick_C7 ⟨3, 1⟩ 7).1 (by decide),
   (timer_tick_C7 ⟨3, 0⟩ 7).2 (by decide) (by decide) 5⟩

/-- C9 counterexample: the claim says repeated `timer_expired` calls return
the same answer until external mutation of the timer, but the answer also
depends on the monotonic clock: on the unmutated timer ⟨10, 10⟩ a call at
clock reading 5 returns `false` while a later call at reading 15 returns
`true`, with no mutation in between. -/
theorem timer_expired_C9_counterexample :
    timer_set 10 0 = ⟨10, 10⟩ ∧ (5 : Nat) ≤ 15 ∧
    timer_expired ⟨10, 10⟩ 5 = false ∧ timer_expired ⟨10, 10⟩ 15 = true := by
  decide

/-- C9 (amended): `timer_expired` returns `now() >= nextDeadline` and is a
pure query (in this embedding it returns only a `Bool`, never a modified
timer); repeated calls at the same clock reading return the same answer, and
once `true` it stays `true` as the monotonic clock advances without external
mutation — but a `false` answer may turn `true` through clock advance alone. -/
theorem timer_expired_C9 (t : simple_timer_t) (now nowLater : Nat)
    (hmono : now ≤ nowLater) :
    timer_expired t now = decide (now ≥ t.next_expiry) ∧
    (timer_expired t now = true → timer_expired t nowLater = true) := by
  constructor
  · rfl
  · intro h
    simp [timer_expired] at h ⊢
    omega

/-- C9 witness: persistence of `true` at the concrete timer ⟨10, 10⟩ between
clock readings 15 and 20. -/
theorem timer_expired_C9_witness :
    timer_expired ⟨10, 10⟩ 15 = decide ((15 : Nat) ≥ 10) ∧
    (timer_expired ⟨10, 10⟩ 15 = true → timer_expired ⟨10, 10⟩ 20 = true) :=
  timer_expired_C9 ⟨10, 10⟩ 15 20 (by decide)

/-- C10: whenever `timer_tick` returns `true` for a timer with positive
interval, the new deadline lands strictly after the clock reading and at most
one interval past it: `now < nextDeadline ≤ now + interval`. -/
theorem timer_tick_C10 (t t2 : simple_timer_t) (now fuel : Nat)
    (hiv : 0 < t.interval)
    (h : timer_tick fuel t now = some (true, t2)) :
    now < t2.next_expiry ∧ t2.next_expiry ≤ now + t.interval := by
  unfold timer_tick at h
  by_cases hexp : t.next_expiry ≤ now
  · rw [if_pos hexp] at h
    cases hr : tickLoop fuel t.next_expiry t.interval now with
    | none => rw [hr] at h; cases h
    | some r =>
      rw [hr] at h
      cases h
      exact ⟨tickLoop_some_gt hr, (tickLoop_some_le hr).1 hexp⟩
  · rw [if_neg hexp] at h
    cases h

/-- C10 witness: timer ⟨10, 10⟩ ticked at clock 55 lands on deadline 60,
strictly after 55 and at most 55 + 10. -/
theorem timer_tick_C10_witness :
    55 < (60 : Nat) ∧ (60 : Nat) ≤ 55 + 10 :=
  timer_tick_C10 ⟨10, 10⟩ ⟨60, 10⟩ 55 6 (by decide) (by decide)

/-! ## PWM claims -/

/-- C2: one iteration of the PWM worker snapshots duty and period, then:
duty ≤ 0 drives the pin low for the full period; duty ≥ 100 drives it high
for the full period; otherwise high for `period * duty / 100` µs then low for
`period - on_time` µs, the on/off pair summing to exactly one period; and the
`running` flag is read exactly once per full cycle: a run of `n` cycles
followed by a stop is one flag check before each of the `n` cycles plus the
final check that exits. -/
theorem pwm_thread_C2 (p : pwm_pin_t) (n : Nat) :
    (p.duty ≤ 0 → pwm_cycle p = [.gpio p.pin false, .sleep p.period_us]) ∧
    (p.duty ≥ 100 → pwm_cycle p = [.gpio p.pin true, .sleep p.period_us]) ∧
    (0 < p.duty → p.duty < 100 →
      pwm_cycle p =
        [.gpio p.pin true, .sleep (p.period_us * p.duty / 100),
         .gpio p.pin false, .sleep (p.period_us - p.period_us * p.duty / 100)] ∧
      p.period_us * p.duty / 100 + (p.period_us - p.period_us * p.duty / 100) =
        p.period_us) ∧
    pwm_thread_func p (List.replicate n true ++ [false]) =
      (List.replicate n (ThreadEvent.checkRunning :: pwm_cycle p)).flatten ++
        [ThreadEvent.checkRunning] := by
  refine ⟨?_, ?_, ?_, ?_⟩
  · intro h
    simp [pwm_cycle, PWM_DUTY_MIN, h]
  · intro h
    have h1 : ¬ p.duty ≤ PWM_DUTY_MIN := by simp [PWM_DUTY_MIN]; omega
    simp [pwm_cycle, h1, PWM_DUTY_MAX, h]
  · intro h0 h100
    have h1 : ¬ p.duty ≤ PWM_DUTY_MIN := by simp [PWM_DUTY_MIN]; omega
    have h2 : ¬ p.duty ≥ PWM_DUTY_MAX := by simp [PWM_DUTY_MAX]; omega
    constructor
    · simp only [pwm_cycle, if_neg h1, PWM_DUTY_MAX]
      rw [if_neg (by omega : ¬ p.duty ≥ (100 : Int))]
    · omega
  · induction n with
    | zero => simp [pwm_thread_func]
    | succ n ih =>
      simp [List.replicate_succ, pwm_thread_func, ih, List.append_assoc]

/-- C2 witness: the proportional branch and the two-cycle trace at the
concrete slot pin 18, duty 25, period 10000 µs (100 Hz). -/
theorem pwm_thread_C2_witness :
    (pwm_cycle ⟨18, 25, 10000, true, true⟩ =
      [.gpio 18 true, .sleep (10000 * 25 / 100),
       .gpio 18 false, .sleep (10000 - 10000 * 25 / 100)] ∧
      (10000 : Int) * 25 / 100 + (10000 - 10000 * 25 / 100) = 10000) ∧
    pwm_thread_func ⟨18, 25, 10000, true, true⟩ (List.replicate 2 true ++ [false]) =
      (List.replicate 2
        (ThreadEvent.checkRunning :: pwm_cycle ⟨18, 25, 10000, true, true⟩)).flatten ++
        [ThreadEvent.checkRunning] :=
  ⟨(pwm_thread_C2 ⟨18, 25, 10000, true, true⟩ 2).2.2.1 (by decide) (by decide),
   (pwm_thread_C2 ⟨18, 25, 10000, true, true⟩ 2).2.2.2⟩

/-- C3: `pwm_init_freq` is idempotent — with an active slot already driving
`pin`, a second init returns 0 at once and leaves the pool untouched (no new
slot, no new worker) — and every init call (either spawn outcome) preserves
the at-most-one-active-slot-per-pin invariant. -/
theorem pwm_init_C3 (pins : List pwm_pin_t) (pin freq : Int) (ok : Bool) :
    ((∃ q ∈ pins, q.active = true ∧ q.pin = pin) →
      pwm_init_freq pins pin freq ok = (0, pins)) ∧
    (uniqueActive pins → uniqueActive (pwm_init_freq pins pin freq ok).2) := by
  constructor
  · rintro ⟨q, hq, ha, hp⟩
    simp [pwm_init_freq, pwm_scan_mem_match hq ha hp 0 none]
  · intro hu
    cases hscan : pwm_scan pin pins 0 none with
    | alreadyActive => simpa [pwm_init_freq, hscan] using hu
    | freeSlot oslot =>
      have hno : ∀ q ∈ pins, q.active = true → q.pin ≠ pin := by
        intro q hq ha hp
        rw [pwm_scan_mem_match hq ha hp 0 none] at hscan
        cases hscan
      cases oslot with
      | none => simpa [pwm_init_freq, hscan] using hu
      | some slot =>
        cases ok with
        | true =>
          simp only [pwm_init_freq, hscan]
          exact uniqueActive_set hu hno
        | false =>
          simp only [pwm_init_freq, hscan]
          exact uniqueActive_set hu hno

/-- C3 witness: a second init of pin 18 on a pool already driving pin 18
returns 0 and keeps the pool unchanged, and uniqueness is preserved. -/
theorem pwm_init_C3_witness :
    pwm_init_freq [⟨18, 40, 10000, true, true⟩] 18 100 true =
      (0, [⟨18, 40, 10000, true, true⟩]) ∧
    uniqueActive (pwm_init_freq [⟨18, 40, 10000, true, true⟩] 18 100 true).2 :=
  ⟨(pwm_init_C3 [⟨18, 40, 10000, true, true⟩] 18 100 true).1 (by decide),
   (pwm_init_C3 [⟨18, 40, 10000, true, true⟩] 18 100 true).2 (by decide)⟩

/-- C4: on a full pool (all `MAX_PWM_PINS` slots active) `pwm_init` of a pin
not in the pool returns -1 and leaves the pool unchanged; after `pwm_stop` of
a pool pin `q` frees its slot, the retried `pwm_init` returns 0 and installs
the new pin in exactly the freed slot position. -/
theorem pwm_init_C4 (pins : List pwm_pin_t) (p q : Int)
    (hlen : pins.length = MAX_PWM_PINS)
    (hall : ∀ r ∈ pins, r.active = true)
    (hnew : ∀ r ∈ pins, r.pin ≠ p)
    (hq : ∃ r ∈ pins, r.pin = q) :
    pwm_init pins p true = (-1, pins) ∧
    ∃ l₁ r l₂, pins = l₁ ++ r :: l₂ ∧ r.pin = q ∧
      (pwm_stop pins q).1 = l₁ ++ { r with running := false, active := false } :: l₂ ∧
      pwm_init (pwm_stop pins q).1 p true =
        (0, l₁ ++ (⟨p, 0, 10000, true, true⟩ : pwm_pin_t) :: l₂) := by
  have hnomatch : ∀ r ∈ pins, (r.active && r.pin == p) = false := by
    intro r hr
    have := hnew r hr
    simp [this]
  constructor
  · rw [pwm_init, pwm_init_freq]
    rw [pwm_scan_all_active hall hnomatch 0]
  · obtain ⟨r0, hr0, hr0q⟩ := hq
    obtain ⟨l₁, r, l₂, heq, hrq, hl₁⟩ :=
      exists_first_split (P := fun a => a.pin == q) ⟨r0, hr0, by simp [hr0q]⟩
    have hrq' : r.pin = q := by simpa using hrq
    have hract : r.active = true := hall r (by rw [heq]; simp)
    have hl₁no : ∀ a ∈ l₁, (a.active && a.pin == q) = false := by
      intro a ha
      have := hl₁ a ha
      simp_all
    have hstop : (pwm_stop pins q).1 =
        l₁ ++ { r with running := false, active := false } :: l₂ := by
      rw [pwm_stop, heq, pwm_stop_loop_first_match hl₁no hract hrq']
    refine ⟨l₁, r, l₂, heq, hrq', hstop, ?_⟩
    rw [hstop, pwm_init, pwm_init_freq]
    have hl₁act : ∀ a ∈ l₁, a.active = true := fun a ha => hall a (by rw [heq]; simp [ha])
    have hno2 : ∀ a ∈ l₁ ++ { r with running := false, active := false } :: l₂,
        (a.active && a.pin == p) = false := by
      intro a ha
      rw [List.mem_append, List.mem_cons] at ha
      rcases ha with ha | ha | ha
      · exact hnomatch a (by rw [heq]; simp [ha])
      · rw [ha]
        simp
      · exact hnomatch a (by rw [heq]; simp [ha])
    rw [pwm_scan_first_free hl₁act rfl hno2 0]
    simp only [Nat.zero_add]
    rw [set_length_append]
    norm_num [PWM_DEFAULT_FREQ_HZ]

/-- C4 witness: the full 8-slot pool on pins 1..8, a ninth pin 9 rejected,
then pin 3 stopped and pin 9 installed in its slot. -/
theorem pwm_init_C4_witness :
    pwm_init ((List.range 8).map
        (fun k => (⟨(k : Int) + 1, 0, 10000, true, true⟩ : pwm_pin_t))) 9 true =
      (-1, (List.range 8).map
        (fun k => (⟨(k : Int) + 1, 0, 10000, true, true⟩ : pwm_pin_t))) ∧
    ∃ l₁ r l₂,
      (List.range 8).map
        (fun k => (⟨(k : Int) + 1, 0, 10000, true, true⟩ : pwm_pin_t)) =
        l₁ ++ r :: l₂ ∧ r.pin = 3 ∧
      (pwm_stop ((List.range 8).map
        (fun k => (⟨(k : Int) + 1, 0, 10000, true, true⟩ : pwm_pin_t))) 3).1 =
        l₁ ++ { r with running := false, active := false } :: l₂ ∧
      pwm_init (pwm_stop ((List.range 8).map
        (fun k => (⟨(k : Int) + 1, 0, 10000, true, true⟩ : pwm_pin_t))) 3).1 9 true =
        (0, l₁ ++ (⟨9, 0, 10000, true, true⟩ : pwm_pin_t) :: l₂) :=
  pwm_init_C4 _ 9 3 (by decide) (by decide) (by decide) (by decide)

/-- C5: `pwm_write` stores the duty clamped into [0, 100] — the clamp agrees
with `max 0 (min 100 d)`, -5 becomes 0, 250 becomes 100 — into the first
active slot for the pin, leaving every other slot untouched; with no active
slot for the pin the call leaves the pool exactly as it was (silent no-op). -/
theorem pwm_write_C5 (pins : List pwm_pin_t) (p d : Int) :
    PWM_CLAMP_DUTY d = max 0 (min 100 d) ∧
    PWM_CLAMP_DUTY (-5) = 0 ∧ PWM_CLAMP_DUTY 250 = 100 ∧
    ((∀ q ∈ pins, (q.active && q.pin == p) = false) → pwm_write pins p d = pins) ∧
    (∀ l₁ r l₂, pins = l₁ ++ r :: l₂ →
      (∀ a ∈ l₁, (a.active && a.pin == p) = false) →
      r.active = true → r.pin = p →
      pwm_write pins p d = l₁ ++ { r with duty := PWM_CLAMP_DUTY d } :: l₂) := by
  refine ⟨?_, by decide, by decide, ?_, ?_⟩
  · simp only [PWM_CLAMP_DUTY, PWM_DUTY_MIN, PWM_DUTY_MAX]
    split_ifs <;> omega
  · intro hno
    rw [pwm_write, pwm_write_loop_no_match hno]
  · intro l₁ r l₂ heq hno hract hrpin
    rw [pwm_write, heq, pwm_write_loop_first_match hno hract hrpin]

/-- C5 witness: writing 250 to active pin 18 stores 100; writing to pin 5,
absent from the pool, changes nothing. -/
theorem pwm_write_C5_witness :
    pwm_write [⟨18, 7, 10000, true, true⟩] 18 250 =
      [] ++ ({ (⟨18, 7, 10000, true, true⟩ : pwm_pin_t) with
        duty := PWM_CLAMP_DUTY 250 } : pwm_pin_t) :: [] ∧
    pwm_write [⟨18, 7, 10000, true, true⟩] 5 250 = [⟨18, 7, 10000, true, true⟩] :=
  ⟨(pwm_write_C5 [⟨18, 7, 10000, true, true⟩] 18 250).2.2.2.2
      [] ⟨18, 7, 10000, true, true⟩ [] rfl (by decide) (by decide) (by decide),
   (pwm_write_C5 [⟨18, 7, 10000, true, true⟩] 5 250).2.2.2.1 (by decide)⟩

/-- C6: `pwm_stop` on a pin with an active slot clears the slot's `running`
flag, joins the worker, and only afterwards drives the pin low and marks the
slot inactive — the event trace is flag clear, join, GPIO low, slot release,
in that order; `pwm_stop` on a pin with no active slot performs no events at
all (in particular no blocking join) and leaves the pool unchanged. -/
theorem pwm_stop_C6 (pins : List pwm_pin_t) (p : Int) :
    ((∀ q ∈ pins, (q.active && q.pin == p) = false) → pwm_stop pins p = (pins, [])) ∧
    (∀ l₁ r l₂, pins = l₁ ++ r :: l₂ →
      (∀ a ∈ l₁, (a.active && a.pin == p) = false) →
      r.active = true → r.pin = p →
      pwm_stop pins p =
        (l₁ ++ { r with running := false, active := false } :: l₂,
         [.setRunningFalse p, .joinThread p, .gpioWrite p false, .slotFreed p])) := by
  constructor
  · intro hno
    rw [pwm_stop, pwm_stop_loop_no_match hno]
  · intro l₁ r l₂ heq hno hract hrpin
    rw [pwm_stop, heq, pwm_stop_loop_first_match hno hract hrpin]

/-- C6 witness: stopping active pin 18 yields the four events in order and
frees the slot; stopping absent pin 5 yields no events and no change. -/
theorem pwm_stop_C6_witness :
    pwm_stop [⟨18, 7, 10000, true, true⟩] 18 =
      ([] ++ ({ (⟨18, 7, 10000, true, true⟩ : pwm_pin_t) with
          running := false, active := false } : pwm_pin_t) :: [],
       [.setRunningFalse 18, .joinThread 18, .gpioWrite 18 false, .slotFreed 18]) ∧
    pwm_stop [⟨18, 7, 10000, true, true⟩] 5 = ([⟨18, 7, 10000, true, true⟩], []) :=
  ⟨(pwm_stop_C6 [⟨18, 7, 10000, true, true⟩] 18).2
      [] ⟨18, 7, 10000, true, true⟩ [] rfl (by decide) (by decide) (by decide),
   (pwm_stop_C6 [⟨18, 7, 10000, true, true⟩] 5).1 (by decide)⟩

/-- C8: when thread spawn fails, `pwm_init_freq` returns -1 (the same failure
surface as capacity exhaustion) with the partially-populated slot rolled back
to inactive, and a subsequent init of the same pin with a working spawn
returns 0 and reuses exactly that slot. -/
theorem pwm_init_C8 (l₁ l₂ : List pwm_pin_t) (r : pwm_pin_t) (p f : Int)
    (hnom : ∀ q ∈ l₁ ++ r :: l₂, (q.active && q.pin == p) = false)
    (hl₁ : ∀ a ∈ l₁, a.active = true)
    (hr : r.active = false) :
    ∃ per : Int,
      pwm_init_freq (l₁ ++ r :: l₂) p f false =
        (-1, l₁ ++ (⟨p, 0, per, true, false⟩ : pwm_pin_t) :: l₂) ∧
      pwm_init_freq (l₁ ++ (⟨p, 0, per, true, false⟩ : pwm_pin_t) :: l₂) p f true =
        (0, l₁ ++ (⟨p, 0, per, true, true⟩ : pwm_pin_t) :: l₂) := by
  refine ⟨1000000 / (if f ≤ 0 then PWM_DEFAULT_FREQ_HZ else f), ?_, ?_⟩
  · rw [pwm_init_freq, pwm_scan_first_free hl₁ hr hnom 0]
    simp [set_length_append]
  · have hno2 : ∀ q ∈ l₁ ++ (⟨p, 0,
        1000000 / (if f ≤ 0 then PWM_DEFAULT_FREQ_HZ else f), true, false⟩ :
          pwm_pin_t) :: l₂, (q.active && q.pin == p) = false := by
      intro q hq
      rw [List.mem_append, List.mem_cons] at hq
      rcases hq with hq | hq | hq
      · exact hnom q (by simp [hq])
      · rw [hq]
        rfl
      · exact hnom q (by simp [hq])
    rw [pwm_init_freq, pwm_scan_first_free hl₁ rfl hno2 0]
    simp [set_length_append]

/-- C8 witness: pool [active pin 2, free slot]; spawn failure on pin 7 rolls
the second slot back to inactive and returns -1; the retried init reuses it
and returns 0. -/
theorem pwm_init_C8_witness :
    ∃ per : Int,
      pwm_init_freq [⟨2, 0, 10000, true, true⟩, ⟨0, 0, 0, false, false⟩] 7 100 false =
        (-1, [⟨2, 0, 10000, true, true⟩] ++ (⟨7, 0, per, true, false⟩ : pwm_pin_t) :: []) ∧
      pwm_init_freq ([⟨2, 0, 10000, true, true⟩] ++
          (⟨7, 0, per, true, false⟩ : pwm_pin_t) :: []) 7 100 true =
        (0, [⟨2, 0, 10000, true, true⟩] ++ (⟨7, 0, per, true, true⟩ : pwm_pin_t) :: []) :=
  pwm_init_C8 [⟨2, 0, 10000, true, true⟩] [] ⟨0, 0, 0, false, false⟩ 7 100
    (by decide) (by decide) (by decide)

end RpiToolkit
